import Mathlib

/-!
Verification of the bandits-notification change-detection pipeline.

The Go sources are embedded shallowly:
* Go strings are modelled as `List Char` where character-level operations
  matter (`scraper.SanitizeText`, `schedule.parseEventText`), and as Lean
  `String` where only whole-string equality matters (schedule entries, keys).
* Go maps (`schedule.Schedule = map[string]*ScheduleEntry`) are modelled as
  association lists `List (String × ScheduleEntry)`; the map invariant
  (no duplicate keys) appears as a `Nodup` hypothesis where a theorem needs it.
* `encoding/json` is external to the repository; `json.Marshal` /
  `json.Unmarshal` are modelled at the JSON-value level (a `Json` inductive),
  with the repository-owned part — the struct tags, `omitempty` behaviour,
  map-key sorting, last-write-wins for duplicate object keys — translated
  faithfully.
* The per-URL orchestration (`processor.ProcessURL`, `handleNormalMode`,
  `handleNoTweetMode`, `handleDryRunMode`) is modelled as a function from an
  environment of call outcomes to the ordered list of side effects the run
  performs plus the `ProcessResult` it returns.
-/

namespace Bandits

/-! ### Character-level string model -/

/-- The whitespace characters recognised by Go `unicode.IsSpace` (and hence
trimmed by `strings.TrimSpace`): ASCII space characters, NEL, NBSP and the
Unicode space separators. -/
def isSpaceChar (c : Char) : Bool :=
  c = ' ' || c = '\t' || c = '\n' || (c.val = 11) || (c.val = 12) || c = '\r' ||
  (c.val = 0x85) || (c.val = 0xA0) || (c.val = 0x1680) ||
  (0x2000 ≤ c.val && c.val ≤ 0x200A) ||
  (c.val = 0x2028) || (c.val = 0x2029) || (c.val = 0x202F) ||
  (c.val = 0x205F) || (c.val = 0x3000)

/-- `strings.TrimSpace`: drop leading and trailing whitespace. -/
def trimSpace (s : List Char) : List Char :=
  ((s.dropWhile isSpaceChar).reverse.dropWhile isSpaceChar).reverse

/-- `strings.ReplaceAll(s, string(c), "")` for a single character `c`. -/
def removeChar (c : Char) (s : List Char) : List Char :=
  s.filter (fun x => x ≠ c)

/-- `strings.ReplaceAll(s, string(a), string(b))` for single characters. -/
def replaceChar (a b : Char) (s : List Char) : List Char :=
  s.map (fun x => if x = a then b else x)

/-- Zero-width space U+200B. -/
def ch200B : Char := Char.ofNat 0x200B

/-- Zero-width non-joiner U+200C. -/
def ch200C : Char := Char.ofNat 0x200C

/-- Zero-width joiner U+200D. -/
def ch200D : Char := Char.ofNat 0x200D

/-- Byte-order mark U+FEFF. -/
def chFEFF : Char := Char.ofNat 0xFEFF

/-- En-dash U+2013. -/
def enDash : Char := Char.ofNat 0x2013

/-- Em-dash U+2014. -/
def emDash : Char := Char.ofNat 0x2014

/-- `scraper.SanitizeText` (scraper package): removes U+200B, U+200C, U+200D
and U+FEFF, replaces the en-dash U+2013 with an ASCII hyphen, and trims
surrounding whitespace.  The em-dash U+2014 is NOT touched. -/
def SanitizeText (s : List Char) : List Char :=
  if s = [] then s
  else
    trimSpace (replaceChar enDash '-'
      (removeChar chFEFF (removeChar ch200D (removeChar ch200C
        (removeChar ch200B s)))))

/-! ### Schedule data model (internal/schedule/schedule.go) -/

/-- `schedule.ScheduleEntry`.  Fields in Go declaration order.  `ParsedTime`
(`*time.Time`) is modelled as an optional RFC3339 string; `parseTime` in the
source always returns `nil`, and no claim depends on the timestamp value. -/
structure ScheduleEntry where
  dayOfWeek : String
  dayOfMonth : String
  location : String
  timeBlock : String
  purpose : String
  parsedTime : Option String
deriving DecidableEq, Repr

/-- `schedule.Schedule = map[string]*ScheduleEntry`, as an association list.
A well-formed Go map has no duplicate keys; theorems assume `Nodup` on the
key list where they need it. -/
abbrev Schedule : Type := List (String × ScheduleEntry)

/-- The key list of a schedule. -/
def keys (s : Schedule) : List String :=
  s.map Prod.fst

/-- Go map indexing `s[k]`. -/
def lookupKey (k : String) : Schedule → Option ScheduleEntry
  | [] => none
  | (k₀, e) :: rest => if k₀ = k then some e else lookupKey k rest

/-- `schedule.ScheduleDiff`. -/
structure ScheduleDiff where
  added : Schedule
  deleted : Schedule
  modified : Schedule
  unchanged : Schedule
deriving DecidableEq

/-- The per-key modification test of `CompareSchedules` (line 803 of
schedule.go): `oldEntry.Location != newEntry.Location ||
oldEntry.TimeBlock != newEntry.TimeBlock || oldEntry.Purpose != newEntry.Purpose`.
`ParsedTime`, `DayOfWeek` and `DayOfMonth` are not consulted. -/
def entryDiffers (o n : ScheduleEntry) : Bool :=
  o.location ≠ n.location || o.timeBlock ≠ n.timeBlock || o.purpose ≠ n.purpose

/-- `schedule.CompareSchedules(old, new)`.  `old = none` is Go's `old == nil`
fast path (everything in `new` is added); for `old = some l` the two range
loops of the source are rendered as filters — iteration order over a Go map
is irrelevant to the resulting maps. -/
def CompareSchedules (old : Option Schedule) (new : Schedule) : ScheduleDiff :=
  match old with
  | none =>
      { added := new, deleted := [], modified := [], unchanged := [] }
  | some o =>
      { added := new.filter (fun kv => (lookupKey kv.1 o).isNone)
        deleted := o.filter (fun kv => (lookupKey kv.1 new).isNone)
        modified := new.filter (fun kv =>
          match lookupKey kv.1 o with
          | some oe => entryDiffers oe kv.2
          | none => false)
        unchanged := new.filter (fun kv =>
          match lookupKey kv.1 o with
          | some oe => !entryDiffers oe kv.2
          | none => false) }

/-- `(*ScheduleDiff).HasChanges()`. -/
def HasChanges (d : ScheduleDiff) : Bool :=
  0 < d.added.length || 0 < d.deleted.length || 0 < d.modified.length

/-- Key list of an optional (possibly `nil`) schedule. -/
def keysOpt : Option Schedule → List String
  | none => []
  | some l => keys l

/-! ### Serialization (SerializeSchedule / DeserializeSchedule)

`SerializeSchedule` is `json.Marshal(schedule)` and `DeserializeSchedule` is
`json.Unmarshal`.  The byte-level JSON grammar belongs to `encoding/json`,
not to this repository; both functions are therefore modelled at the JSON
value level.  What the repository itself determines — the field names from
the struct tags, `omitempty` on `purpose` and `parsedTime`, ascending map-key
order on marshal, last-write-wins for duplicate object keys on unmarshal,
`null` / empty input giving an empty schedule — is translated directly. -/

/-- A JSON value. -/
inductive Json where
  | null : Json
  | bool (b : Bool) : Json
  | num (n : Int) : Json
  | str (s : String) : Json
  | arr (elems : List Json) : Json
  | obj (fields : List (String × Json)) : Json

/-- Byte-ascending (= code-point lexicographic, for UTF-8) comparison of two
strings, the order `json.Marshal` sorts map keys by. -/
def charListLe : List Char → List Char → Bool
  | [], _ => true
  | _ :: _, [] => false
  | a :: as, b :: bs =>
    if a.val < b.val then true
    else if b.val < a.val then false
    else charListLe as bs

/-- Key order used by `json.Marshal` on a `map[string]...`. -/
def keyLe (a b : String) : Bool :=
  charListLe a.toList b.toList

/-- Insert one entry into a key-sorted schedule. -/
def insertSorted (kv : String × ScheduleEntry) : Schedule → Schedule
  | [] => [kv]
  | x :: xs => if keyLe kv.1 x.1 then kv :: x :: xs else x :: insertSorted kv xs

/-- Sort a schedule by ascending key, as `json.Marshal` does before emitting
a map. -/
def sortKeys : Schedule → Schedule
  | [] => []
  | kv :: rest => insertSorted kv (sortKeys rest)

/-- Marshal one `ScheduleEntry`: the four untagged-plain fields always, then
`purpose` unless empty (`omitempty`), then `parsedTime` unless nil
(`omitempty`). -/
def encodeEntry (e : ScheduleEntry) : Json :=
  Json.obj
    ([("dayOfWeek", Json.str e.dayOfWeek),
      ("dayOfMonth", Json.str e.dayOfMonth),
      ("location", Json.str e.location),
      ("timeBlock", Json.str e.timeBlock)] ++
     (if e.purpose = "" then [] else [("purpose", Json.str e.purpose)]) ++
     (match e.parsedTime with
      | none => []
      | some t => [("parsedTime", Json.str t)]))

/-- `schedule.SerializeSchedule` = `json.Marshal` of the schedule map:
an object whose fields are the entries in ascending key order. -/
def SerializeSchedule (s : Schedule) : Json :=
  Json.obj ((sortKeys s).map (fun kv => (kv.1, encodeEntry kv.2)))

/-- Unmarshal a JSON value into one struct field of type `string`:
a JSON string sets the field, JSON `null` leaves it untouched, anything
else is a type error. -/
def decodeStrField (v : Json) (cur : String) : Except String String :=
  match v with
  | Json.str s => Except.ok s
  | Json.null => Except.ok cur
  | _ => Except.error "cannot unmarshal into field of type string"

/-- Unmarshal a JSON value into the `*time.Time` field: a string parses (the
text is kept as the model of the parsed time), `null` leaves the field,
anything else is a type error. -/
def decodeTimeField (v : Json) (cur : Option String) :
    Except String (Option String) :=
  match v with
  | Json.str s => Except.ok (some s)
  | Json.null => Except.ok cur
  | _ => Except.error "cannot unmarshal into field of type *time.Time"

/-- Apply one JSON object member to a partially decoded entry.  Known tags
set their field (later duplicates overwrite); unknown members are ignored,
as `encoding/json` does. -/
def applyEntryField (e : ScheduleEntry) (kv : String × Json) :
    Except String ScheduleEntry :=
  if kv.1 = "dayOfWeek" then
    (decodeStrField kv.2 e.dayOfWeek).map (fun s => { e with dayOfWeek := s })
  else if kv.1 = "dayOfMonth" then
    (decodeStrField kv.2 e.dayOfMonth).map (fun s => { e with dayOfMonth := s })
  else if kv.1 = "location" then
    (decodeStrField kv.2 e.location).map (fun s => { e with location := s })
  else if kv.1 = "timeBlock" then
    (decodeStrField kv.2 e.timeBlock).map (fun s => { e with timeBlock := s })
  else if kv.1 = "purpose" then
    (decodeStrField kv.2 e.purpose).map (fun s => { e with purpose := s })
  else if kv.1 = "parsedTime" then
    (decodeTimeField kv.2 e.parsedTime).map (fun t => { e with parsedTime := t })
  else
    Except.ok e

/-- The zero value a decoded `ScheduleEntry` starts from. -/
def zeroEntry : ScheduleEntry :=
  { dayOfWeek := "", dayOfMonth := "", location := "", timeBlock := "",
    purpose := "", parsedTime := none }

/-- Unmarshal one `ScheduleEntry` from a JSON value. -/
def decodeEntry (v : Json) : Except String ScheduleEntry :=
  match v with
  | Json.obj fields => fields.foldlM applyEntryField zeroEntry
  | Json.null => Except.ok zeroEntry
  | _ => Except.error "cannot unmarshal into ScheduleEntry"

/-- Go map assignment `m[k] = e`: overwrite the existing binding or append. -/
def mapInsert (s : Schedule) (k : String) (e : ScheduleEntry) : Schedule :=
  if (lookupKey k s).isSome then
    s.map (fun kv => if kv.1 = k then (k, e) else kv)
  else
    s ++ [(k, e)]

/-- `schedule.DeserializeSchedule` = `json.Unmarshal` into a
`map[string]*ScheduleEntry`: empty input (modelled as JSON `null`, together
with the explicit `len(data) == 0` early return of the source) yields the
empty schedule; an object is decoded member by member, later duplicate keys
overwriting earlier ones; anything else is a type error. -/
def DeserializeSchedule (v : Json) : Except String Schedule :=
  match v with
  | Json.null => Except.ok []
  | Json.obj fields =>
      fields.foldlM
        (fun acc kv => (decodeEntry kv.2).map (fun e => mapInsert acc kv.1 e))
        []
  | _ => Except.error "failed to deserialize schedule"

/-! ### parseEventText (schedule.go lines 586-648)

The time pattern is the Go regexp `\d+:\d+([-–—]\d+:\d+)?(am|pm)?`.
`regexp.FindString` uses leftmost-first (Perl-preference) semantics; for this
pattern a deterministic matcher is exact: `\d+` always stands before a
non-digit requirement, so greedy digit runs never need backtracking, and the
two trailing groups are optional with nothing mandatory after them, so a
failed group attempt simply falls through. -/

/-- Go `\d`, i.e. ASCII `[0-9]`. -/
def isDigitChar (c : Char) : Bool :=
  c.isDigit

/-- The dash class `[-–—]` of the time pattern. -/
def isDashChar (c : Char) : Bool :=
  c = '-' || c = enDash || c = emDash

/-- `p` is a prefix of `l` (Go `strings.HasPrefix`). -/
def hasPrefixL : List Char → List Char → Bool
  | [], _ => true
  | _ :: _, [] => false
  | a :: p, b :: l => a = b && hasPrefixL p l

/-- Go `strings.TrimSuffix(l, suffix)`: remove one trailing copy of
`suffix` if present. -/
def trimSuffixL (l suffix : List Char) : List Char :=
  if hasPrefixL suffix.reverse l.reverse then
    l.take (l.length - suffix.length)
  else l

/-- Go `strings.Join(parts, sep)`. -/
def joinSep (sep : List Char) : List (List Char) → List Char
  | [] => []
  | [p] => p
  | p :: q :: ps => p ++ sep ++ joinSep sep (q :: ps)

/-- Attempt the optional group `([-–—]\d+:\d+)?` at the front of `r`:
returns the consumed characters and the remainder, consuming nothing when
the group does not match. -/
def matchDashPart (r : List Char) : List Char × List Char :=
  match r with
  | [] => ([], [])
  | c :: rest =>
    if isDashChar c then
      let e₁ := rest.takeWhile isDigitChar
      let r₁ := rest.dropWhile isDigitChar
      if e₁.isEmpty then ([], c :: rest)
      else
        match r₁ with
        | ':' :: r₂ =>
          let e₂ := r₂.takeWhile isDigitChar
          let r₃ := r₂.dropWhile isDigitChar
          if e₂.isEmpty then ([], c :: rest)
          else (c :: (e₁ ++ ':' :: e₂), r₃)
        | _ => ([], c :: rest)
    else ([], c :: rest)

/-- Attempt the optional group `(am|pm)?` at the front of `r`, returning
the consumed characters (`am` preferred, per alternation order). -/
def matchAmPm (r : List Char) : List Char :=
  if hasPrefixL ['a', 'm'] r then ['a', 'm']
  else if hasPrefixL ['p', 'm'] r then ['p', 'm']
  else []

/-- Match `\d+:\d+([-–—]\d+:\d+)?(am|pm)?` anchored at the front of `l`,
returning the matched characters. -/
def matchTimeAt (l : List Char) : Option (List Char) :=
  let d₁ := l.takeWhile isDigitChar
  let r₁ := l.dropWhile isDigitChar
  if d₁.isEmpty then none
  else if hasPrefixL [':'] r₁ then
    let r₂ := r₁.tail
    let d₂ := r₂.takeWhile isDigitChar
    let r₃ := r₂.dropWhile isDigitChar
    if d₂.isEmpty then none
    else
      let g := matchDashPart r₃
      some (d₁ ++ ':' :: (d₂ ++ g.1 ++ matchAmPm g.2))
  else none

/-- `FindString` of the time pattern, returning both the text before the
leftmost match and the match itself. -/
def findTimeSplit : List Char → Option (List Char × List Char)
  | [] => none
  | c :: rest =>
    match matchTimeAt (c :: rest) with
    | some m => some ([], m)
    | none => (findTimeSplit rest).map (fun pm => (c :: pm.1, pm.2))

/-- `strings.Split(text, m)[0]` for non-empty `m`: the text before the first
occurrence of `m`, or all of `text` when `m` does not occur. -/
def beforeFirst (m : List Char) : List Char → List Char
  | [] => []
  | c :: rest =>
    if hasPrefixL m (c :: rest) then [] else c :: beforeFirst m rest

/-- The part-collection loop of `parseEventText` (it appears verbatim in
both branches of the source): split on commas, trim each part, keep the
non-empty ones. -/
def partsOf (x : List Char) : List (List Char) :=
  ((x.splitOn ',').map trimSpace).filter (fun q => !q.isEmpty)

/-- `schedule.parseEventText`, returning `(purpose, location, timeBlock)`. -/
def parseEventText (text₀ : List Char) : List Char × List Char × List Char :=
  let text := trimSpace (SanitizeText text₀)
  match findTimeSplit text with
  | some pm =>
    let tb := replaceChar emDash '-' (replaceChar enDash '-'
      (trimSuffixL (trimSuffixL pm.2 ['a', 'm']) ['p', 'm']))
    let parts := partsOf (trimSpace (trimSuffixL (beforeFirst pm.2 text) [',']))
    if 2 ≤ parts.length then
      (trimSpace (joinSep [',', ' '] parts.dropLast),
       trimSpace (parts.getLastD []), tb)
    else if parts.length = 1 then
      ([], trimSpace (parts.headD []), tb)
    else
      ([], [], tb)
  | none =>
    let parts := partsOf text
    if 2 ≤ parts.length then
      (trimSpace (joinSep [',', ' '] parts.dropLast),
       trimSpace (parts.getLastD []), [])
    else
      ([], trimSpace text, [])

/-! ### Orchestration (internal/processor, ProcessURL and the mode handlers)

Each external call the processor makes is recorded as a `SideEffect` in the
order the source performs it; the outcome of every fallible call is an input
(`ProcEnv`).  Blob-write failures (`UploadFile` / `SaveSchedule`) are only
logged by the source and do not change control flow, so their outcomes do
not appear in the environment; the calls themselves still appear in the
trace. -/

/-- The observable side effects of one per-URL run. -/
inductive SideEffect where
  | putArchiveScreenshot
  | uploadMedia
  | postTweet
  | putPreviousSchedule
  | putArchiveSchedule
deriving DecidableEq, Repr

/-- `processor.ProcessMode`. -/
inductive ProcMode where
  | normal
  | dryRun
  | noTweet
deriving DecidableEq, Repr

/-- The distinct non-empty values `ProcessResult.Error` can take on the
paths modelled here. -/
inductive ProcError where
  | verifyFailed
  | scrapeFailed
  | parseFailed
  | uploadMediaFailed
  | postFailed
  | dryRunMode
deriving DecidableEq, Repr

/-- Outcomes of the external calls a `ProcessURL` run makes, plus the data
the run works on.  `loadPrevOk = false` is the first-run / download-error
case, in which the source substitutes an empty previous schedule. -/
structure ProcEnv where
  mode : ProcMode
  verifyOk : Bool
  scrapeOk : Bool
  parseOk : Bool
  loadPrevOk : Bool
  prev : Schedule
  current : Schedule
  uploadMediaOk : Bool
  postOk : Bool

/-- The `ProcessResult` fields the claims mention. -/
structure ProcResult where
  changesFound : Bool
  err : Option ProcError
deriving DecidableEq, Repr

/-- The previous schedule the run actually compares against. -/
def effectivePrev (env : ProcEnv) : Schedule :=
  if env.loadPrevOk then env.prev else []

/-- `processor.handleNoTweetMode`: archive-screenshot put, then the
`previousSchedule.json` put, then the archive-schedule put; never errors
(blob failures are logged warnings). -/
def handleNoTweetMode : List SideEffect × ProcResult :=
  ([SideEffect.putArchiveScreenshot, SideEffect.putPreviousSchedule,
    SideEffect.putArchiveSchedule],
   { changesFound := true, err := none })

/-- `processor.handleNormalMode`: archive-screenshot put (failure logged,
run continues), then `UploadMedia`; on its failure the run returns with
`result.Error` set.  Then the post; on its failure the run returns with
`result.Error` set.  Only then the `previousSchedule.json` put followed by
the archive-schedule put. -/
def handleNormalMode (env : ProcEnv) : List SideEffect × ProcResult :=
  if !env.uploadMediaOk then
    ([SideEffect.putArchiveScreenshot, SideEffect.uploadMedia],
     { changesFound := true, err := some ProcError.uploadMediaFailed })
  else if !env.postOk then
    ([SideEffect.putArchiveScreenshot, SideEffect.uploadMedia,
      SideEffect.postTweet],
     { changesFound := true, err := some ProcError.postFailed })
  else
    ([SideEffect.putArchiveScreenshot, SideEffect.uploadMedia,
      SideEffect.postTweet, SideEffect.putPreviousSchedule,
      SideEffect.putArchiveSchedule],
     { changesFound := true, err := none })

/-- `processor.ProcessURL`: verify credentials, scrape, parse, load the
previous schedule (failure means first run), diff; stop on no changes;
otherwise dispatch on the mode.  `handleDryRunMode` performs no side
effects and returns the `"dry-run-mode"` sentinel error for the caller. -/
def ProcessURL (env : ProcEnv) : List SideEffect × ProcResult :=
  if !env.verifyOk then
    ([], { changesFound := false, err := some ProcError.verifyFailed })
  else if !env.scrapeOk then
    ([], { changesFound := false, err := some ProcError.scrapeFailed })
  else if !env.parseOk then
    ([], { changesFound := false, err := some ProcError.parseFailed })
  else
    let diff := CompareSchedules (some (effectivePrev env)) env.current
    if !HasChanges diff then
      ([], { changesFound := false, err := none })
    else
      match env.mode with
      | ProcMode.noTweet => handleNoTweetMode
      | ProcMode.dryRun =>
          ([], { changesFound := true, err := some ProcError.dryRunMode })
      | ProcMode.normal => handleNormalMode env

/-! ### Helper lemmas: association-list lookup and keys -/

theorem mem_keys_iff {k : String} {l : Schedule} :
    k ∈ keys l ↔ ∃ e, (k, e) ∈ l := by
  constructor
  · intro h
    rcases List.mem_map.mp h with ⟨⟨k₁, e⟩, hm, hk⟩
    exact ⟨e, by simpa [← hk] using hm⟩
  · rintro ⟨e, hm⟩
    exact List.mem_map.mpr ⟨(k, e), hm, rfl⟩

theorem lookupKey_isSome_iff {k : String} {l : Schedule} :
    (lookupKey k l).isSome = true ↔ k ∈ keys l := by
  induction l with
  | nil => simp [lookupKey, keys]
  | cons kv rest ih =>
    obtain ⟨k₀, e⟩ := kv
    by_cases h : k₀ = k
    · subst h
      simp [lookupKey, keys]
    · simp [lookupKey, h, keys, ih, Ne.symm h]

theorem lookupKey_eq_none_iff {k : String} {l : Schedule} :
    lookupKey k l = none ↔ k ∉ keys l := by
  rw [← lookupKey_isSome_iff]
  cases lookupKey k l <;> simp

theorem mem_of_lookupKey_eq_some {k : String} {e : ScheduleEntry}
    {l : Schedule} (h : lookupKey k l = some e) : (k, e) ∈ l := by
  induction l with
  | nil => simp [lookupKey] at h
  | cons kv rest ih =>
    obtain ⟨k₀, e₀⟩ := kv
    by_cases hk : k₀ = k
    · subst hk
      simp only [lookupKey, if_pos rfl] at h
      rcases h with rfl | h
      · exact List.mem_cons_self _ _
    · simp only [lookupKey, if_neg hk] at h
      exact List.mem_cons_of_mem _ (ih h)

theorem lookupKey_eq_some_of_mem {k : String} {e : ScheduleEntry}
    {l : Schedule} (hn : (keys l).Nodup) (h : (k, e) ∈ l) :
    lookupKey k l = some e := by
  induction l with
  | nil => simp at h
  | cons kv rest ih =>
    obtain ⟨k₀, e₀⟩ := kv
    simp only [keys, List.map_cons, List.nodup_cons] at hn
    rcases List.mem_cons.mp h with h₁ | h₁
    · obtain ⟨hk, he⟩ := Prod.mk.injEq .. ▸ h₁
      obtain rfl := hk.symm
      obtain rfl := he.symm
      simp [lookupKey]
    · have hk : k₀ ≠ k := by
        intro hkk
        subst hkk
        exact hn.1 (mem_keys_iff.mpr ⟨e, h₁⟩)
      simp only [lookupKey, if_neg hk]
      exact ih hn.2 h₁

theorem mem_keys_filter {p : String × ScheduleEntry → Bool} {l : Schedule}
    {k : String} :
    k ∈ keys (l.filter p) ↔ ∃ e, (k, e) ∈ l ∧ p (k, e) = true := by
  constructor
  · intro h
    rcases mem_keys_iff.mp h with ⟨e, hm⟩
    rcases List.mem_filter.mp hm with ⟨hm', hp⟩
    exact ⟨e, hm', hp⟩
  · rintro ⟨e, hm, hp⟩
    exact mem_keys_iff.mpr ⟨e, List.mem_filter.mpr ⟨hm, hp⟩⟩

/-- C2 membership description of the `added` key set. -/
theorem mem_added_iff {o new : Schedule} {k : String} :
    k ∈ keys (CompareSchedules (some o) new).added ↔
      (k ∈ keys new ∧ lookupKey k o = none) := by
  rw [show (CompareSchedules (some o) new).added =
      new.filter (fun kv => (lookupKey kv.1 o).isNone) from rfl]
  rw [mem_keys_filter]
  constructor
  · rintro ⟨e, hm, hp⟩
    exact ⟨mem_keys_iff.mpr ⟨e, hm⟩, Option.isNone_iff_eq_none.mp hp⟩
  · rintro ⟨hk, hnone⟩
    rcases mem_keys_iff.mp hk with ⟨e, hm⟩
    exact ⟨e, hm, Option.isNone_iff_eq_none.mpr hnone⟩

/-- C2 membership description of the `deleted` key set. -/
theorem mem_deleted_iff {o new : Schedule} {k : String} :
    k ∈ keys (CompareSchedules (some o) new).deleted ↔
      (k ∈ keys o ∧ lookupKey k new = none) := by
  rw [show (CompareSchedules (some o) new).deleted =
      o.filter (fun kv => (lookupKey kv.1 new).isNone) from rfl]
  rw [mem_keys_filter]
  constructor
  · rintro ⟨e, hm, hp⟩
    exact ⟨mem_keys_iff.mpr ⟨e, hm⟩, Option.isNone_iff_eq_none.mp hp⟩
  · rintro ⟨hk, hnone⟩
    rcases mem_keys_iff.mp hk with ⟨e, hm⟩
    exact ⟨e, hm, Option.isNone_iff_eq_none.mpr hnone⟩

/-- C2 membership description of the `modified` key set. -/
theorem mem_modified_iff {o new : Schedule} {k : String} :
    k ∈ keys (CompareSchedules (some o) new).modified ↔
      ∃ e oe, (k, e) ∈ new ∧ lookupKey k o = some oe ∧
        entryDiffers oe e = true := by
  rw [show (CompareSchedules (some o) new).modified =
      new.filter (fun kv =>
        match lookupKey kv.1 o with
        | some oe => entryDiffers oe kv.2
        | none => false) from rfl]
  rw [mem_keys_filter]
  constructor
  · rintro ⟨e, hm, hp⟩
    rcases ho : lookupKey k o with _ | oe
    · rw [ho] at hp
      simp at hp
    · rw [ho] at hp
      exact ⟨e, oe, hm, rfl, hp⟩
  · rintro ⟨e, oe, hm, ho, hd⟩
    exact ⟨e, hm, by simp [ho, hd]⟩

/-- C2 membership description of the `unchanged` key set. -/
theorem mem_unchanged_iff {o new : Schedule} {k : String} :
    k ∈ keys (CompareSchedules (some o) new).unchanged ↔
      ∃ e oe, (k, e) ∈ new ∧ lookupKey k o = some oe ∧
        entryDiffers oe e = false := by
  rw [show (CompareSchedules (some o) new).unchanged =
      new.filter (fun kv =>
        match lookupKey kv.1 o with
        | some oe => !entryDiffers oe kv.2
        | none => false) from rfl]
  rw [mem_keys_filter]
  constructor
  · rintro ⟨e, hm, hp⟩
    rcases ho : lookupKey k o with _ | oe
    · rw [ho] at hp
      simp at hp
    · rw [ho] at hp
      simp only [Bool.not_eq_true'] at hp
      exact ⟨e, oe, hm, rfl, hp⟩
  · rintro ⟨e, oe, hm, ho, hd⟩
    exact ⟨e, hm, by simp [ho, hd]⟩

/-- C2: for every pair of schedules, the four key sets of
`CompareSchedules(old, new)` are pairwise disjoint, their union is
`keys old ∪ keys new`, and `HasChanges()` is true iff one of `added`,
`deleted`, `modified` is non-empty.  The hypothesis is the Go-map invariant
on `new` (no duplicate keys); `old = none` is the `nil` fast path. -/
theorem compareSchedules_partition (old : Option Schedule) (new : Schedule)
    (hnew : (keys new).Nodup) :
    (∀ k : String,
      ¬(k ∈ keys (CompareSchedules old new).added ∧
        k ∈ keys (CompareSchedules old new).deleted) ∧
      ¬(k ∈ keys (CompareSchedules old new).added ∧
        k ∈ keys (CompareSchedules old new).modified) ∧
      ¬(k ∈ keys (CompareSchedules old new).added ∧
        k ∈ keys (CompareSchedules old new).unchanged) ∧
      ¬(k ∈ keys (CompareSchedules old new).deleted ∧
        k ∈ keys (CompareSchedules old new).modified) ∧
      ¬(k ∈ keys (CompareSchedules old new).deleted ∧
        k ∈ keys (CompareSchedules old new).unchanged) ∧
      ¬(k ∈ keys (CompareSchedules old new).modified ∧
        k ∈ keys (CompareSchedules old new).unchanged)) ∧
    (∀ k : String,
      (k ∈ keys (CompareSchedules old new).added ∨
       k ∈ keys (CompareSchedules old new).deleted ∨
       k ∈ keys (CompareSchedules old new).modified ∨
       k ∈ keys (CompareSchedules old new).unchanged) ↔
      (k ∈ keysOpt old ∨ k ∈ keys new)) ∧
    (HasChanges (CompareSchedules old new) = true ↔
      ((CompareSchedules old new).added ≠ [] ∨
       (CompareSchedules old new).deleted ≠ [] ∨
       (CompareSchedules old new).modified ≠ [])) := by
  refine ⟨?_, ?_, ?_⟩
  · intro k
    cases old with
    | none =>
      simp [CompareSchedules, keys]
    | some o =>
      refine ⟨?_, ?_, ?_, ?_, ?_, ?_⟩
      · rintro ⟨ha, hd⟩
        rcases mem_added_iff.mp ha with ⟨hknew, -⟩
        rcases mem_deleted_iff.mp hd with ⟨-, hnone⟩
        exact (lookupKey_eq_none_iff.mp hnone) hknew
      · rintro ⟨ha, hm⟩
        rcases mem_added_iff.mp ha with ⟨-, hnone⟩
        rcases mem_modified_iff.mp hm with ⟨e, oe, -, ho, -⟩
        simp [hnone] at ho
      · rintro ⟨ha, hu⟩
        rcases mem_added_iff.mp ha with ⟨-, hnone⟩
        rcases mem_unchanged_iff.mp hu with ⟨e, oe, -, ho, -⟩
        simp [hnone] at ho
      · rintro ⟨hd, hm⟩
        rcases mem_deleted_iff.mp hd with ⟨-, hnone⟩
        rcases mem_modified_iff.mp hm with ⟨e, oe, hmem, -, -⟩
        exact (lookupKey_eq_none_iff.mp hnone) (mem_keys_iff.mpr ⟨e, hmem⟩)
      · rintro ⟨hd, hu⟩
        rcases mem_deleted_iff.mp hd with ⟨-, hnone⟩
        rcases mem_unchanged_iff.mp hu with ⟨e, oe, hmem, -, -⟩
        exact (lookupKey_eq_none_iff.mp hnone) (mem_keys_iff.mpr ⟨e, hmem⟩)
      · rintro ⟨hm, hu⟩
        rcases mem_modified_iff.mp hm with ⟨e, oe, hmem, ho, hdiff⟩
        rcases mem_unchanged_iff.mp hu with ⟨e', oe', hmem', ho', hsame⟩
        have he : e = e' := by
          have h₁ := lookupKey_eq_some_of_mem hnew hmem
          have h₂ := lookupKey_eq_some_of_mem hnew hmem'
          rw [h₁] at h₂
          exact Option.some.injEq .. ▸ h₂
        have hoe : oe = oe' := by
          rw [ho] at ho'
          exact Option.some.injEq .. ▸ ho'
        subst he
        subst hoe
        rw [hdiff] at hsame
        exact Bool.true_eq_false.mp hsame
  · intro k
    cases old with
    | none =>
      simp [CompareSchedules, keys, keysOpt]
    | some o =>
      constructor
      · rintro (ha | hd | hm | hu)
        · exact Or.inr (mem_added_iff.mp ha).1
        · exact Or.inl (mem_deleted_iff.mp hd).1
        · rcases mem_modified_iff.mp hm with ⟨e, oe, hmem, -, -⟩
          exact Or.inr (mem_keys_iff.mpr ⟨e, hmem⟩)
        · rcases mem_unchanged_iff.mp hu with ⟨e, oe, hmem, -, -⟩
          exact Or.inr (mem_keys_iff.mpr ⟨e, hmem⟩)
      · intro h
        by_cases hknew : k ∈ keys new
        · rcases mem_keys_iff.mp hknew with ⟨e, hmem⟩
          rcases ho : lookupKey k o with _ | oe
          · exact Or.inl (mem_added_iff.mpr ⟨hknew, ho⟩)
          · cases hdiff : entryDiffers oe e with
            | true =>
              exact Or.inr (Or.inr (Or.inl
                (mem_modified_iff.mpr ⟨e, oe, hmem, ho, hdiff⟩)))
            | false =>
              exact Or.inr (Or.inr (Or.inr
                (mem_unchanged_iff.mpr ⟨e, oe, hmem, ho, hdiff⟩)))
        · rcases h with hko | hknew'
          · have hnone : lookupKey k new = none :=
              lookupKey_eq_none_iff.mpr hknew
            exact Or.inr (Or.inl (mem_deleted_iff.mpr ⟨hko, hnone⟩))
          · exact absurd hknew' hknew
  · simp [HasChanges, List.length_pos, or_assoc]

/-- Witness for `compareSchedules_partition` at a concrete pair of
schedules (one added, one deleted, one modified, one unchanged key). -/
theorem compareSchedules_partition_witness :
    (keys [("K2",
        { dayOfWeek := "TUESDAY", dayOfMonth := "10/3", location := "Eliot",
          timeBlock := "4:15", purpose := "", parsedTime := none }),
      ("K3",
        { dayOfWeek := "", dayOfMonth := "10/5", location := "BTC",
          timeBlock := "6:00-7:30", purpose := "", parsedTime := none }),
      ("K4",
        { dayOfWeek := "", dayOfMonth := "10/7", location := "Warren",
          timeBlock := "", purpose := "", parsedTime := none })]).Nodup ∧
    (HasChanges (CompareSchedules
      (some [("K1",
        { dayOfWeek := "MONDAY", dayOfMonth := "10/2", location := "A",
          timeBlock := "3:00", purpose := "", parsedTime := none }),
      ("K2",
        { dayOfWeek := "TUESDAY", dayOfMonth := "10/3", location := "Eliot",
          timeBlock := "4:15", purpose := "", parsedTime := none }),
      ("K3",
        { dayOfWeek := "", dayOfMonth := "10/5", location := "BTC",
          timeBlock := "5:30-7:30", purpose := "", parsedTime := none })])
      [("K2",
        { dayOfWeek := "TUESDAY", dayOfMonth := "10/3", location := "Eliot",
          timeBlock := "4:15", purpose := "", parsedTime := none }),
      ("K3",
        { dayOfWeek := "", dayOfMonth := "10/5", location := "BTC",
          timeBlock := "6:00-7:30", purpose := "", parsedTime := none }),
      ("K4",
        { dayOfWeek := "", dayOfMonth := "10/7", location := "Warren",
          timeBlock := "", purpose := "", parsedTime := none })]) = true ↔
      ((CompareSchedules
      (some [("K1",
        { dayOfWeek := "MONDAY", dayOfMonth := "10/2", location := "A",
          timeBlock := "3:00", purpose := "", parsedTime := none }),
      ("K2",
        { dayOfWeek := "TUESDAY", dayOfMonth := "10/3", location := "Eliot",
          timeBlock := "4:15", purpose := "", parsedTime := none }),
      ("K3",
        { dayOfWeek := "", dayOfMonth := "10/5", location := "BTC",
          timeBlock := "5:30-7:30", purpose := "", parsedTime := none })])
      [("K2",
        { dayOfWeek := "TUESDAY", dayOfMonth := "10/3", location := "Eliot",
          timeBlock := "4:15", purpose := "", parsedTime := none }),
      ("K3",
        { dayOfWeek := "", dayOfMonth := "10/5", location := "BTC",
          timeBlock := "6:00-7:30", purpose := "", parsedTime := none }),
      ("K4",
        { dayOfWeek := "", dayOfMonth := "10/7", location := "Warren",
          timeBlock := "", purpose := "", parsedTime := none })]).added ≠ [] ∨
       (CompareSchedules
      (some [("K1",
        { dayOfWeek := "MONDAY", dayOfMonth := "10/2", location := "A",
          timeBlock := "3:00", purpose := "", parsedTime := none }),
      ("K2",
        { dayOfWeek := "TUESDAY", dayOfMonth := "10/3", location := "Eliot",
          timeBlock := "4:15", purpose := "", parsedTime := none }),
      ("K3",
        { dayOfWeek := "", dayOfMonth := "10/5", location := "BTC",
          timeBlock := "5:30-7:30", purpose := "", parsedTime := none })])
      [("K2",
        { dayOfWeek := "TUESDAY", dayOfMonth := "10/3", location := "Eliot",
          timeBlock := "4:15", purpose := "", parsedTime := none }),
      ("K3",
        { dayOfWeek := "", dayOfMonth := "10/5", location := "BTC",
          timeBlock := "6:00-7:30", purpose := "", parsedTime := none }),
      ("K4",
        { dayOfWeek := "", dayOfMonth := "10/7", location := "Warren",
          timeBlock := "", purpose := "", parsedTime := none })]).deleted ≠ [] ∨
       (CompareSchedules
      (some [("K1",
        { dayOfWeek := "MONDAY", dayOfMonth := "10/2", location := "A",
          timeBlock := "3:00", purpose := "", parsedTime := none }),
      ("K2",
        { dayOfWeek := "TUESDAY", dayOfMonth := "10/3", location := "Eliot",
          timeBlock := "4:15", purpose := "", parsedTime := none }),
      ("K3",
        { dayOfWeek := "", dayOfMonth := "10/5", location := "BTC",
          timeBlock := "5:30-7:30", purpose := "", parsedTime := none })])
      [("K2",
        { dayOfWeek := "TUESDAY", dayOfMonth := "10/3", location := "Eliot",
          timeBlock := "4:15", purpose := "", parsedTime := none }),
      ("K3",
        { dayOfWeek := "", dayOfMonth := "10/5", location := "BTC",
          timeBlock := "6:00-7:30", purpose := "", parsedTime := none }),
      ("K4",
        { dayOfWeek := "", dayOfMonth := "10/7", location := "Warren",
          timeBlock := "", purpose := "", parsedTime := none })]).modified ≠ [])) :=
  ⟨by decide,
   (compareSchedules_partition _ _ (by decide)).2.2⟩

/-- C6: a key present in both schedules is classified `unchanged` iff the
two entries have equal `purpose`, `location` and `timeBlock`, and `modified`
iff one of the three differs; `parsedTime` (and `dayOfWeek`/`dayOfMonth`)
play no part. -/
theorem compareSchedules_common_key (o new : Schedule) (k : String)
    (oe ne : ScheduleEntry) (hnew : (keys new).Nodup)
    (ho : lookupKey k o = some oe) (hn : lookupKey k new = some ne) :
    (k ∈ keys (CompareSchedules (some o) new).unchanged ↔
      (oe.purpose = ne.purpose ∧ oe.location = ne.location ∧
       oe.timeBlock = ne.timeBlock)) ∧
    (k ∈ keys (CompareSchedules (some o) new).modified ↔
      ¬(oe.purpose = ne.purpose ∧ oe.location = ne.location ∧
        oe.timeBlock = ne.timeBlock)) := by
  have hmem : (k, ne) ∈ new := mem_of_lookupKey_eq_some hn
  have hdiff_iff : entryDiffers oe ne = false ↔
      (oe.purpose = ne.purpose ∧ oe.location = ne.location ∧
       oe.timeBlock = ne.timeBlock) := by
    simp [entryDiffers]
    tauto
  constructor
  · rw [mem_unchanged_iff]
    constructor
    · rintro ⟨e, oe', hmem', ho', hsame⟩
      have he : e = ne := by
        have h₁ := lookupKey_eq_some_of_mem hnew hmem'
        rw [hn] at h₁
        exact (Option.some.injEq .. ▸ h₁).symm
      have hoe : oe' = oe := by
        rw [ho] at ho'
        exact (Option.some.injEq .. ▸ ho').symm
      subst he
      subst hoe
      exact hdiff_iff.mp hsame
    · intro hfields
      exact ⟨ne, oe, hmem, ho, hdiff_iff.mpr hfields⟩
  · rw [mem_modified_iff]
    constructor
    · rintro ⟨e, oe', hmem', ho', hd⟩
      have he : e = ne := by
        have h₁ := lookupKey_eq_some_of_mem hnew hmem'
        rw [hn] at h₁
        exact (Option.some.injEq .. ▸ h₁).symm
      have hoe : oe' = oe := by
        rw [ho] at ho'
        exact (Option.some.injEq .. ▸ ho').symm
      subst he
      subst hoe
      intro hfields
      rw [hdiff_iff.mpr hfields] at hd
      exact Bool.false_ne_true hd
    · intro hfields
      refine ⟨ne, oe, hmem, ho, ?_⟩
      cases hd : entryDiffers oe ne with
      | true => rfl
      | false => exact absurd (hdiff_iff.mp hd) hfields

/-- Witness for `compareSchedules_common_key`: entries that differ only in
`parsedTime` land in `unchanged`. -/
theorem compareSchedules_common_key_witness :
    "K" ∈ keys (CompareSchedules
      (some [("K",
        { dayOfWeek := "TUESDAY", dayOfMonth := "10/3", location := "Eliot",
          timeBlock := "4:15", purpose := "Scrimmage",
          parsedTime := none })])
      [("K",
        { dayOfWeek := "TUESDAY", dayOfMonth := "10/3", location := "Eliot",
          timeBlock := "4:15", purpose := "Scrimmage",
          parsedTime := some "2023-10-03T16:15:00Z" })]).unchanged :=
  ((compareSchedules_common_key
      [("K",
        { dayOfWeek := "TUESDAY", dayOfMonth := "10/3", location := "Eliot",
          timeBlock := "4:15", purpose := "Scrimmage",
          parsedTime := none })]
      [("K",
        { dayOfWeek := "TUESDAY", dayOfMonth := "10/3", location := "Eliot",
          timeBlock := "4:15", purpose := "Scrimmage",
          parsedTime := some "2023-10-03T16:15:00Z" })]
      "K"
      { dayOfWeek := "TUESDAY", dayOfMonth := "10/3", location := "Eliot",
        timeBlock := "4:15", purpose := "Scrimmage", parsedTime := none }
      { dayOfWeek := "TUESDAY", dayOfMonth := "10/3", location := "Eliot",
        timeBlock := "4:15", purpose := "Scrimmage",
        parsedTime := some "2023-10-03T16:15:00Z" }
      (by decide) (by decide) (by decide)).1).mpr
    ⟨rfl, rfl, rfl⟩

/-- C10: `CompareSchedules` takes the entry values of `added`, `modified`
and `unchanged` from the new schedule and those of `deleted` from the old
schedule; in particular a modified key maps to the new entry, which differs
from the old one. -/
theorem compareSchedules_values (o new : Schedule)
    (hold : (keys o).Nodup) (hnew : (keys new).Nodup) :
    (∀ k e, (k, e) ∈ (CompareSchedules (some o) new).added →
      lookupKey k new = some e) ∧
    (∀ k e, (k, e) ∈ (CompareSchedules (some o) new).modified →
      lookupKey k new = some e ∧
      ∃ oe, lookupKey k o = some oe ∧ entryDiffers oe e = true) ∧
    (∀ k e, (k, e) ∈ (CompareSchedules (some o) new).unchanged →
      lookupKey k new = some e) ∧
    (∀ k e, (k, e) ∈ (CompareSchedules (some o) new).deleted →
      lookupKey k o = some e) := by
  refine ⟨?_, ?_, ?_, ?_⟩
  · intro k e hm
    have h₁ : (k, e) ∈ new := (List.mem_filter.mp hm).1
    exact lookupKey_eq_some_of_mem hnew h₁
  · intro k e hm
    have h₁ : (k, e) ∈ new := (List.mem_filter.mp hm).1
    have hp := (List.mem_filter.mp hm).2
    refine ⟨lookupKey_eq_some_of_mem hnew h₁, ?_⟩
    rcases ho : lookupKey k o with _ | oe
    · rw [show ((k, e) : String × ScheduleEntry).1 = k from rfl] at hp
      rw [ho] at hp
      simp at hp
    · rw [show ((k, e) : String × ScheduleEntry).1 = k from rfl] at hp
      rw [ho] at hp
      exact ⟨oe, rfl, hp⟩
  · intro k e hm
    have h₁ : (k, e) ∈ new := (List.mem_filter.mp hm).1
    exact lookupKey_eq_some_of_mem hnew h₁
  · intro k e hm
    have h₁ : (k, e) ∈ o := (List.mem_filter.mp hm).1
    exact lookupKey_eq_some_of_mem hold h₁

/-- Witness for `compareSchedules_values`: the modified map carries the new
entry (timeBlock 4:30-6:30), not the old one. -/
theorem compareSchedules_values_witness :
    lookupKey "THURSDAY, 10/5"
      [("THURSDAY, 10/5",
        { dayOfWeek := "THURSDAY", dayOfMonth := "10/5",
          location := "Warren", timeBlock := "4:30-6:30", purpose := "",
          parsedTime := none })] =
      some
        { dayOfWeek := "THURSDAY", dayOfMonth := "10/5",
          location := "Warren", timeBlock := "4:30-6:30", purpose := "",
          parsedTime := none } ∧
    ∃ oe, lookupKey "THURSDAY, 10/5"
      [("THURSDAY, 10/5",
        { dayOfWeek := "THURSDAY", dayOfMonth := "10/5",
          location := "Warren", timeBlock := "4:45-6:45", purpose := "",
          parsedTime := none })] = some oe ∧
      entryDiffers oe
        { dayOfWeek := "THURSDAY", dayOfMonth := "10/5",
          location := "Warren", timeBlock := "4:30-6:30", purpose := "",
          parsedTime := none } = true :=
  (compareSchedules_values
      [("THURSDAY, 10/5",
        { dayOfWeek := "THURSDAY", dayOfMonth := "10/5",
          location := "Warren", timeBlock := "4:45-6:45", purpose := "",
          parsedTime := none })]
      [("THURSDAY, 10/5",
        { dayOfWeek := "THURSDAY", dayOfMonth := "10/5",
          location := "Warren", timeBlock := "4:30-6:30", purpose := "",
          parsedTime := none })]
      (by decide) (by decide)).2.1 "THURSDAY, 10/5"
    { dayOfWeek := "THURSDAY", dayOfMonth := "10/5",
      location := "Warren", timeBlock := "4:30-6:30", purpose := "",
      parsedTime := none }
    (by decide)

/-! ### Helper lemmas: trimming and the normalizer -/

theorem trimSpace_eq_rdrop (s : List Char) :
    trimSpace s =
      List.rdropWhile isSpaceChar (List.dropWhile isSpaceChar s) := rfl

theorem mem_of_mem_trimSpace {a : Char} {s : List Char}
    (h : a ∈ trimSpace s) : a ∈ s := by
  rw [trimSpace_eq_rdrop] at h
  have h₁ := (List.rdropWhile_prefix isSpaceChar
    (List.dropWhile isSpaceChar s)).sublist.subset h
  exact (List.dropWhile_sublist isSpaceChar).subset h₁

theorem dropWhile_head_false {p : Char → Bool} {l r : List Char} {a : Char}
    (h : List.dropWhile p l = a :: r) : p a = false := by
  induction l with
  | nil => simp at h
  | cons b l ih =>
    rw [List.dropWhile_cons] at h
    by_cases hb : p b = true
    · rw [if_pos hb] at h
      exact ih h
    · rw [if_neg hb] at h
      rcases h with ⟨rfl, -⟩
      exact Bool.not_eq_true _ ▸ hb

theorem trimSpace_idem (s : List Char) :
    trimSpace (trimSpace s) = trimSpace s := by
  rw [trimSpace_eq_rdrop, trimSpace_eq_rdrop]
  have hmid : List.dropWhile isSpaceChar
      (List.rdropWhile isSpaceChar (List.dropWhile isSpaceChar s)) =
      List.rdropWhile isSpaceChar (List.dropWhile isSpaceChar s) := by
    obtain ⟨t, ht⟩ :=
      List.rdropWhile_prefix isSpaceChar (List.dropWhile isSpaceChar s)
    rcases hv : List.rdropWhile isSpaceChar (List.dropWhile isSpaceChar s) with
      _ | ⟨a, v⟩
    · simp
    · rw [hv] at ht
      have hd : List.dropWhile isSpaceChar s = a :: (v ++ t) := by
        rw [← ht, List.cons_append]
      have hpa : isSpaceChar a = false := dropWhile_head_false hd
      simp [List.dropWhile_cons, hpa]
  rw [hmid, List.rdropWhile_idempotent]

theorem mem_of_mem_removeChar {a c : Char} {s : List Char}
    (h : a ∈ removeChar c s) : a ∈ s :=
  (List.filter_sublist s).subset h

theorem not_mem_removeChar_self (c : Char) (s : List Char) :
    c ∉ removeChar c s := by
  intro h
  have := (List.mem_filter.mp h).2
  simp at this

theorem mem_replaceChar_cases {a x y : Char} {s : List Char}
    (h : a ∈ replaceChar x y s) : a ∈ s ∨ a = y := by
  rcases List.mem_map.mp h with ⟨b, hb, hba⟩
  by_cases hbx : b = x
  · subst hbx
    simp at hba
    exact Or.inr hba.symm
  · rw [if_neg hbx] at hba
    subst hba
    exact Or.inl hb

theorem not_mem_replaceChar_target {x y : Char} (hxy : x ≠ y)
    (s : List Char) : x ∉ replaceChar x y s := by
  intro h
  rcases List.mem_map.mp h with ⟨b, -, hbx⟩
  by_cases hb : b = x
  · rw [if_pos hb] at hbx
    exact hxy hbx.symm
  · rw [if_neg hb] at hbx
    exact hb hbx

theorem removeChar_eq_self {c : Char} {s : List Char} (h : c ∉ s) :
    removeChar c s = s := by
  rw [removeChar, List.filter_eq_self]
  intro a ha
  simp only [decide_eq_true_eq]
  intro hac
  exact h (hac ▸ ha)

theorem replaceChar_eq_self {x y : Char} {s : List Char} (h : x ∉ s) :
    replaceChar x y s = s := by
  rw [replaceChar]
  rw [show s.map (fun c => if c = x then y else c) = s.map id from
    List.map_congr_left (fun a ha => by
      have hax : a ≠ x := fun hc => h (hc ▸ ha)
      simp [hax])]
  exact List.map_id s

theorem count_dropWhile_not_space {c : Char} {s : List Char}
    (hc : isSpaceChar c = false) :
    (s.dropWhile isSpaceChar).count c = s.count c := by
  conv_rhs => rw [← List.takeWhile_append_dropWhile isSpaceChar s]
  rw [List.count_append]
  have h₀ : (s.takeWhile isSpaceChar).count c = 0 := by
    rw [List.count_eq_zero]
    intro hmem
    have := List.mem_takeWhile_imp hmem
    rw [hc] at this
    exact Bool.false_ne_true this
  rw [h₀, Nat.zero_add]

theorem count_trimSpace {c : Char} {s : List Char}
    (hc : isSpaceChar c = false) :
    (trimSpace s).count c = s.count c := by
  rw [trimSpace_eq_rdrop]
  rw [show List.rdropWhile isSpaceChar (List.dropWhile isSpaceChar s) =
      ((s.dropWhile isSpaceChar).reverse.dropWhile isSpaceChar).reverse
    from rfl]
  rw [List.count_reverse, count_dropWhile_not_space hc, List.count_reverse,
    count_dropWhile_not_space hc]

theorem count_removeChar {c d : Char} {s : List Char} (h : c ≠ d) :
    (removeChar d s).count c = s.count c := by
  induction s with
  | nil => rfl
  | cons a s ih =>
    have hstep : removeChar d (a :: s) =
        if a = d then removeChar d s else a :: removeChar d s := by
      rw [removeChar, List.filter_cons]
      by_cases had : a = d
      · rw [if_neg (by simp [had]), if_pos had]
        rfl
      · rw [if_pos (by simp [had]), if_neg had]
        rfl
    rw [hstep]
    by_cases had : a = d
    · rw [if_pos had, ih, List.count_cons]
      have hac : (a == c) = false := by
        rw [beq_eq_false_iff_ne]
        intro hx
        exact h (had ▸ hx.symm)
      rw [hac]
      simp
    · rw [if_neg had, List.count_cons, List.count_cons, ih]

theorem count_replaceChar_target {x y : Char} {s : List Char} (hxy : x ≠ y) :
    (replaceChar x y s).count y = s.count y + s.count x := by
  induction s with
  | nil => rfl
  | cons a s ih =>
    rw [replaceChar, List.map_cons]
    rw [show List.map (fun ch => if ch = x then y else ch) s =
      replaceChar x y s from rfl]
    by_cases hax : a = x
    · subst hax
      rw [if_pos rfl, List.count_cons, ih, List.count_cons, List.count_cons]
      have h₂ : (a == y) = false := by
        rw [beq_eq_false_iff_ne]
        intro hx
        exact hxy hx
      rw [h₂]
      simp
      omega
    · rw [if_neg hax, List.count_cons, ih, List.count_cons, List.count_cons]
      have h₃ : (a == x) = false := by
        rw [beq_eq_false_iff_ne]
        exact hax
      rw [h₃]
      simp
      omega

theorem count_replaceChar_other {x y c : Char} {s : List Char}
    (hcx : c ≠ x) (hcy : c ≠ y) :
    (replaceChar x y s).count c = s.count c := by
  induction s with
  | nil => rfl
  | cons a s ih =>
    rw [replaceChar, List.map_cons]
    rw [show List.map (fun ch => if ch = x then y else ch) s =
      replaceChar x y s from rfl]
    by_cases hax : a = x
    · subst hax
      rw [if_pos rfl, List.count_cons, ih, List.count_cons]
      have h₁ : (y == c) = false := by
        rw [beq_eq_false_iff_ne]
        intro hx
        exact hcy hx.symm
      have h₂ : (a == c) = false := by
        rw [beq_eq_false_iff_ne]
        intro hx
        exact hcx hx.symm
      rw [h₁, h₂]
    · rw [if_neg hax, List.count_cons, ih, List.count_cons]

/-- The five characters the normalizer eliminates never occur in its
output. -/
theorem sanitize_not_mem (t : List Char) :
    ch200B ∉ SanitizeText t ∧ ch200C ∉ SanitizeText t ∧
    ch200D ∉ SanitizeText t ∧ chFEFF ∉ SanitizeText t ∧
    enDash ∉ SanitizeText t := by
  rw [SanitizeText]
  by_cases ht : t = []
  · simp [ht, ch200B, ch200C, ch200D, chFEFF, enDash]
  · rw [if_neg ht]
    have hdash : enDash ≠ '-' := by decide
    refine ⟨?_, ?_, ?_, ?_, ?_⟩
    · intro h
      rcases mem_replaceChar_cases (mem_of_mem_trimSpace h) with h₁ | h₁
      · exact not_mem_removeChar_self ch200B _
          (mem_of_mem_removeChar (mem_of_mem_removeChar
            (mem_of_mem_removeChar h₁)))
      · exact absurd h₁ (by decide)
    · intro h
      rcases mem_replaceChar_cases (mem_of_mem_trimSpace h) with h₁ | h₁
      · exact not_mem_removeChar_self ch200C _
          (mem_of_mem_removeChar (mem_of_mem_removeChar h₁))
      · exact absurd h₁ (by decide)
    · intro h
      rcases mem_replaceChar_cases (mem_of_mem_trimSpace h) with h₁ | h₁
      · exact not_mem_removeChar_self ch200D _ (mem_of_mem_removeChar h₁)
      · exact absurd h₁ (by decide)
    · intro h
      rcases mem_replaceChar_cases (mem_of_mem_trimSpace h) with h₁ | h₁
      · exact not_mem_removeChar_self chFEFF _ h₁
      · exact absurd h₁ (by decide)
    · exact not_mem_replaceChar_target hdash _ ∘ mem_of_mem_trimSpace

/-- The normalizer output carries no surrounding whitespace. -/
theorem sanitize_trimmed (t : List Char) :
    trimSpace (SanitizeText t) = SanitizeText t := by
  rw [SanitizeText]
  by_cases ht : t = []
  · simp [ht, trimSpace]
  · rw [if_neg ht]
    exact trimSpace_idem _

/-- C7 counterexample: the claim says every em-dash U+2014 in the input
appears as an ASCII hyphen in the output, but `SanitizeText` only replaces
the en-dash U+2013 — on the one-character input U+2014 the output still
contains U+2014 (and no hyphen). -/
theorem sanitizeText_emDash_counterexample :
    emDash ∈ SanitizeText [emDash] ∧ '-' ∉ SanitizeText [emDash] := by
  decide

/-- C7 amended: `SanitizeText` output contains none of U+200B, U+200C,
U+200D, U+FEFF and no en-dash U+2013; each en-dash of the input appears as
an ASCII hyphen in the output (the output's hyphen count is the input's
hyphen count plus its en-dash count, and no hyphen is dropped); em-dashes
U+2014 pass through unchanged (their count is preserved — the source does
NOT replace them); and the output has no leading or trailing whitespace. -/
theorem sanitizeText_output_clean (t : List Char) :
    ch200B ∉ SanitizeText t ∧ ch200C ∉ SanitizeText t ∧
    ch200D ∉ SanitizeText t ∧ chFEFF ∉ SanitizeText t ∧
    enDash ∉ SanitizeText t ∧
    (SanitizeText t).count '-' = t.count '-' + t.count enDash ∧
    (SanitizeText t).count emDash = t.count emDash ∧
    trimSpace (SanitizeText t) = SanitizeText t := by
  obtain ⟨h₁, h₂, h₃, h₄, h₅⟩ := sanitize_not_mem t
  refine ⟨h₁, h₂, h₃, h₄, h₅, ?_, ?_, sanitize_trimmed t⟩
  · rw [SanitizeText]
    by_cases ht : t = []
    · rw [if_pos ht, ht]
      rfl
    · rw [if_neg ht, count_trimSpace (by decide),
        count_replaceChar_target (by decide),
        count_removeChar (show ('-' : Char) ≠ chFEFF from by decide),
        count_removeChar (show ('-' : Char) ≠ ch200D from by decide),
        count_removeChar (show ('-' : Char) ≠ ch200C from by decide),
        count_removeChar (show ('-' : Char) ≠ ch200B from by decide),
        count_removeChar (show enDash ≠ chFEFF from by decide),
        count_removeChar (show enDash ≠ ch200D from by decide),
        count_removeChar (show enDash ≠ ch200C from by decide),
        count_removeChar (show enDash ≠ ch200B from by decide)]
  · rw [SanitizeText]
    by_cases ht : t = []
    · rw [if_pos ht]
    · rw [if_neg ht, count_trimSpace (by decide),
        count_replaceChar_other (show emDash ≠ enDash from by decide)
          (show emDash ≠ ('-' : Char) from by decide),
        count_removeChar (show emDash ≠ chFEFF from by decide),
        count_removeChar (show emDash ≠ ch200D from by decide),
        count_removeChar (show emDash ≠ ch200C from by decide),
        count_removeChar (show emDash ≠ ch200B from by decide)]

/-- C8: the normalizer is idempotent. -/
theorem sanitizeText_idem (t : List Char) :
    SanitizeText (SanitizeText t) = SanitizeText t := by
  by_cases hu : SanitizeText t = []
  · rw [hu]
    simp [SanitizeText]
  · obtain ⟨h₁, h₂, h₃, h₄, h₅⟩ := sanitize_not_mem t
    rw [show SanitizeText (SanitizeText t) =
        trimSpace (replaceChar enDash '-'
          (removeChar chFEFF (removeChar ch200D (removeChar ch200C
            (removeChar ch200B (SanitizeText t)))))) from by
      rw [SanitizeText, if_neg hu]]
    rw [removeChar_eq_self h₁, removeChar_eq_self h₂, removeChar_eq_self h₃,
      removeChar_eq_self h₄, replaceChar_eq_self h₅, sanitize_trimmed]

/-! ### Claims about the orchestration -/

/-- C1 counterexample: a Normal-mode run (all calls succeed, changes
detected, the post is published) in which the archive schedule JSON is
written AFTER `previousSchedule.json` — so `previousSchedule.json` is not
the last side effect, and the archive JSON write does not precede the
post.  This refutes the claimed order archive-png, archive-json,
uploadMedia, post, previousSchedule-last. -/
theorem processURL_order_counterexample :
    (ProcessURL
      { mode := ProcMode.normal, verifyOk := true, scrapeOk := true,
        parseOk := true, loadPrevOk := true, prev := [],
        current := [("MONDAY, 12/5",
          { dayOfWeek := "MONDAY", dayOfMonth := "12/5",
            location := "Field A", timeBlock := "3:00-5:00",
            purpose := "Team Practice", parsedTime := none })],
        uploadMediaOk := true, postOk := true }).2.changesFound = true ∧
    (ProcessURL
      { mode := ProcMode.normal, verifyOk := true, scrapeOk := true,
        parseOk := true, loadPrevOk := true, prev := [],
        current := [("MONDAY, 12/5",
          { dayOfWeek := "MONDAY", dayOfMonth := "12/5",
            location := "Field A", timeBlock := "3:00-5:00",
            purpose := "Team Practice", parsedTime := none })],
        uploadMediaOk := true, postOk := true }).1 =
      [SideEffect.putArchiveScreenshot, SideEffect.uploadMedia,
       SideEffect.postTweet, SideEffect.putPreviousSchedule,
       SideEffect.putArchiveSchedule] ∧
    (ProcessURL
      { mode := ProcMode.normal, verifyOk := true, scrapeOk := true,
        parseOk := true, loadPrevOk := true, prev := [],
        current := [("MONDAY, 12/5",
          { dayOfWeek := "MONDAY", dayOfMonth := "12/5",
            location := "Field A", timeBlock := "3:00-5:00",
            purpose := "Team Practice", parsedTime := none })],
        uploadMediaOk := true, postOk := true }).1.getLast? ≠
      some SideEffect.putPreviousSchedule := by
  decide

/-- C1 amended: in every Normal-mode run that detects changes and in which
`uploadMedia` and the post succeed, the five side effects execute in the
order archive-screenshot put, `uploadMedia`, post, `previousSchedule.json`
put, archive-schedule-JSON put: the commit write follows the post but is
itself followed by the archive JSON write, and only the screenshot archive
write precedes the post. -/
theorem processURL_normal_order (env : ProcEnv)
    (hm : env.mode = ProcMode.normal) (hv : env.verifyOk = true)
    (hs : env.scrapeOk = true) (hp : env.parseOk = true)
    (hch : HasChanges
      (CompareSchedules (some (effectivePrev env)) env.current) = true)
    (hu : env.uploadMediaOk = true) (hpo : env.postOk = true) :
    (ProcessURL env).1 =
      [SideEffect.putArchiveScreenshot, SideEffect.uploadMedia,
       SideEffect.postTweet, SideEffect.putPreviousSchedule,
       SideEffect.putArchiveSchedule] := by
  simp [ProcessURL, hv, hs, hp, hch, hm, handleNormalMode, hu, hpo]

/-- Witness for `processURL_normal_order`. -/
theorem processURL_normal_order_witness :
    (ProcessURL
      { mode := ProcMode.normal, verifyOk := true, scrapeOk := true,
        parseOk := true, loadPrevOk := true, prev := [],
        current := [("MONDAY, 12/5",
          { dayOfWeek := "MONDAY", dayOfMonth := "12/5",
            location := "Field A", timeBlock := "3:00-5:00",
            purpose := "Team Practice", parsedTime := none })],
        uploadMediaOk := true, postOk := true }).1 =
      [SideEffect.putArchiveScreenshot, SideEffect.uploadMedia,
       SideEffect.postTweet, SideEffect.putPreviousSchedule,
       SideEffect.putArchiveSchedule] :=
  processURL_normal_order _ rfl rfl rfl rfl (by decide) rfl rfl

/-- C3: in a Normal-mode run that detects changes, failure of `uploadMedia`
or of the post makes the run return with `result.Error` set, and the put of
`previousSchedule.json` never executes, leaving the committed prior
schedule unchanged. -/
theorem processURL_publish_failure_no_commit (env : ProcEnv)
    (hm : env.mode = ProcMode.normal) (hv : env.verifyOk = true)
    (hs : env.scrapeOk = true) (hp : env.parseOk = true)
    (hch : HasChanges
      (CompareSchedules (some (effectivePrev env)) env.current) = true)
    (hfail : env.uploadMediaOk = false ∨ env.postOk = false) :
    (ProcessURL env).2.err ≠ none ∧
    SideEffect.putPreviousSchedule ∉ (ProcessURL env).1 := by
  by_cases hu : env.uploadMediaOk = true
  · have hpo : env.postOk = false := by
      rcases hfail with h | h
      · rw [h] at hu
        exact absurd hu (by decide)
      · exact h
    constructor
    · simp [ProcessURL, hv, hs, hp, hch, hm, handleNormalMode, hu, hpo]
    · simp [ProcessURL, hv, hs, hp, hch, hm, handleNormalMode, hu, hpo]
  · have hu' : env.uploadMediaOk = false := by
      cases h : env.uploadMediaOk
      · rfl
      · exact absurd h hu
    constructor
    · simp [ProcessURL, hv, hs, hp, hch, hm, handleNormalMode, hu']
    · simp [ProcessURL, hv, hs, hp, hch, hm, handleNormalMode, hu']

/-- Witness for `processURL_publish_failure_no_commit` (the post fails). -/
theorem processURL_publish_failure_no_commit_witness :
    (ProcessURL
      { mode := ProcMode.normal, verifyOk := true, scrapeOk := true,
        parseOk := true, loadPrevOk := true, prev := [],
        current := [("MONDAY, 12/5",
          { dayOfWeek := "MONDAY", dayOfMonth := "12/5",
            location := "Field A", timeBlock := "3:00-5:00",
            purpose := "Team Practice", parsedTime := none })],
        uploadMediaOk := true, postOk := false }).2.err ≠ none ∧
    SideEffect.putPreviousSchedule ∉
      (ProcessURL
      { mode := ProcMode.normal, verifyOk := true, scrapeOk := true,
        parseOk := true, loadPrevOk := true, prev := [],
        current := [("MONDAY, 12/5",
          { dayOfWeek := "MONDAY", dayOfMonth := "12/5",
            location := "Field A", timeBlock := "3:00-5:00",
            purpose := "Team Practice", parsedTime := none })],
        uploadMediaOk := true, postOk := false }).1 :=
  processURL_publish_failure_no_commit _ rfl rfl rfl rfl (by decide)
    (Or.inr rfl)

/-- C4 counterexample: a no-tweet (NoPublish) run that detects changes
performs no post, yet DOES execute the put of `previousSchedule.json` —
refuting "in every run that does not publish a post the put of
previousSchedule.json does not execute". -/
theorem noTweet_commits_counterexample :
    SideEffect.postTweet ∉
      (ProcessURL
        { mode := ProcMode.noTweet, verifyOk := true, scrapeOk := true,
          parseOk := true, loadPrevOk := true, prev := [],
          current := [("MONDAY, 12/5",
            { dayOfWeek := "MONDAY", dayOfMonth := "12/5",
              location := "Field A", timeBlock := "3:00-5:00",
              purpose := "Team Practice", parsedTime := none })],
          uploadMediaOk := true, postOk := true }).1 ∧
    SideEffect.putPreviousSchedule ∈
      (ProcessURL
        { mode := ProcMode.noTweet, verifyOk := true, scrapeOk := true,
          parseOk := true, loadPrevOk := true, prev := [],
          current := [("MONDAY, 12/5",
            { dayOfWeek := "MONDAY", dayOfMonth := "12/5",
              location := "Field A", timeBlock := "3:00-5:00",
              purpose := "Team Practice", parsedTime := none })],
          uploadMediaOk := true, postOk := true }).1 := by
  decide

/-- C4 amended: the put of `previousSchedule.json` executes exactly in runs
that verify, scrape and parse successfully, detect changes, and are in
no-tweet mode or in Normal mode with `uploadMedia` and the post
succeeding.  In particular the no-change branch and local dry-run mode
never execute it, while no-tweet mode (which never posts) does. -/
theorem putPreviousSchedule_iff (env : ProcEnv) :
    SideEffect.putPreviousSchedule ∈ (ProcessURL env).1 ↔
      (env.verifyOk = true ∧ env.scrapeOk = true ∧ env.parseOk = true ∧
       HasChanges
         (CompareSchedules (some (effectivePrev env)) env.current) = true ∧
       (env.mode = ProcMode.noTweet ∨
        (env.mode = ProcMode.normal ∧ env.uploadMediaOk = true ∧
         env.postOk = true))) := by
  obtain ⟨m, v, s, p, lp, pr, cur, um, po⟩ := env
  cases v with
  | false => simp [ProcessURL]
  | true =>
    cases s with
    | false => simp [ProcessURL]
    | true =>
      cases p with
      | false => simp [ProcessURL]
      | true =>
        cases hch : HasChanges (CompareSchedules
            (some (effectivePrev
              { mode := m, verifyOk := true, scrapeOk := true,
                parseOk := true, loadPrevOk := lp, prev := pr,
                current := cur, uploadMediaOk := um, postOk := po }))
            cur) with
        | false => simp [ProcessURL, hch]
        | true =>
          cases m <;> cases um <;> cases po <;>
            simp [ProcessURL, hch, handleNoTweetMode, handleNormalMode]

/-! ### Helper lemmas: serialization round trip -/

theorem decodeEntry_encodeEntry (e : ScheduleEntry) :
    decodeEntry (encodeEntry e) = Except.ok e := by
  obtain ⟨dw, dm, loc, tb, pu, pt⟩ := e
  by_cases hp : pu = "" <;> rcases pt with _ | t <;>
    simp [encodeEntry, decodeEntry, applyEntryField, decodeStrField,
      decodeTimeField, zeroEntry, hp, Except.map, Bind.bind, Except.bind,
      pure, Except.pure]

theorem mapInsert_fresh {s : Schedule} {k : String} {e : ScheduleEntry}
    (h : lookupKey k s = none) : mapInsert s k e = s ++ [(k, e)] := by
  rw [mapInsert, h]
  rfl

theorem lookupKey_append_of_none {k : String} {l₁ l₂ : Schedule}
    (h : lookupKey k l₁ = none) :
    lookupKey k (l₁ ++ l₂) = lookupKey k l₂ := by
  induction l₁ with
  | nil => rfl
  | cons kv rest ih =>
    obtain ⟨k₀, e₀⟩ := kv
    by_cases hk : k₀ = k
    · rw [lookupKey, if_pos hk] at h
      exact absurd h (by simp)
    · rw [List.cons_append, lookupKey, if_neg hk]
      rw [lookupKey, if_neg hk] at h
      exact ih h

theorem except_map_ok {α β : Type} (f : α → β) (a : α) :
    (Except.ok a : Except String α).map f = Except.ok (f a) := rfl

theorem except_bind_ok {α β : Type} (g : α → Except String β) (a : α) :
    ((Except.ok a : Except String α) >>= g) = g a := rfl

theorem decode_fold_fresh (l : Schedule) (acc : Schedule)
    (hfresh : ∀ kv ∈ l, lookupKey kv.1 acc = none)
    (hnd : (keys l).Nodup) :
    (l.map (fun kv => (kv.1, encodeEntry kv.2))).foldlM
      (fun a kv => (decodeEntry kv.2).map (fun e => mapInsert a kv.1 e))
      acc = Except.ok (acc ++ l) := by
  induction l generalizing acc with
  | nil =>
    rw [List.append_nil]
    rfl
  | cons kv rest ih =>
    obtain ⟨k, e⟩ := kv
    simp only [List.map_cons, List.foldlM_cons, decodeEntry_encodeEntry,
      except_map_ok, except_bind_ok]
    rw [mapInsert_fresh (hfresh (k, e) (List.mem_cons_self _ _))]
    simp only [keys, List.map_cons, List.nodup_cons] at hnd
    have hstep :
        ∀ kv' ∈ rest, lookupKey kv'.1 (acc ++ [(k, e)]) = none := by
      intro kv' hkv'
      have hne : k ≠ kv'.1 := by
        intro hc
        exact hnd.1 (hc ▸ mem_keys_iff.mpr ⟨kv'.2, hkv'⟩)
      rw [lookupKey_append_of_none (hfresh kv' (List.mem_cons_of_mem _ hkv')),
        lookupKey, if_neg hne]
      rfl
    rw [ih (acc ++ [(k, e)]) hstep hnd.2]
    simp

theorem insertSorted_perm (kv : String × ScheduleEntry) (l : Schedule) :
    (insertSorted kv l).Perm (kv :: l) := by
  induction l with
  | nil => exact List.Perm.refl _
  | cons x xs ih =>
    rw [insertSorted]
    by_cases h : keyLe kv.1 x.1 = true
    · rw [if_pos h]
    · rw [if_neg h]
      exact (ih.cons x).trans (List.Perm.swap kv x xs)

theorem sortKeys_perm (l : Schedule) : (sortKeys l).Perm l := by
  induction l with
  | nil => exact List.Perm.refl _
  | cons kv rest ih =>
    exact (insertSorted_perm kv (sortKeys rest)).trans (ih.cons kv)

theorem keys_perm_of_perm {l l' : Schedule} (h : l.Perm l') :
    (keys l).Perm (keys l') :=
  h.map Prod.fst

/-- C5: deserializing a serialized schedule succeeds and recovers a
schedule with the same key set whose entries agree with the originals on
`dayOfWeek`, `dayOfMonth`, `purpose`, `location` and `timeBlock`.  The
hypothesis is the Go-map invariant (no duplicate keys). -/
theorem serialization_roundtrip (s : Schedule) (h : (keys s).Nodup) :
    ∃ s₁, DeserializeSchedule (SerializeSchedule s) = Except.ok s₁ ∧
      (∀ k, k ∈ keys s₁ ↔ k ∈ keys s) ∧
      (∀ k e, lookupKey k s = some e → ∃ e₁,
        lookupKey k s₁ = some e₁ ∧
        e₁.dayOfWeek = e.dayOfWeek ∧ e₁.dayOfMonth = e.dayOfMonth ∧
        e₁.purpose = e.purpose ∧ e₁.location = e.location ∧
        e₁.timeBlock = e.timeBlock) := by
  have hperm := sortKeys_perm s
  have hnd : (keys (sortKeys s)).Nodup :=
    (keys_perm_of_perm hperm).nodup_iff.mpr h
  refine ⟨sortKeys s, ?_, ?_, ?_⟩
  · rw [SerializeSchedule, DeserializeSchedule]
    rw [decode_fold_fresh (sortKeys s) [] (fun kv _ => rfl) hnd]
    rw [List.nil_append]
  · intro k
    exact (keys_perm_of_perm hperm).mem_iff
  · intro k e hk
    have hmem : (k, e) ∈ sortKeys s :=
      hperm.mem_iff.mpr (mem_of_lookupKey_eq_some hk)
    exact ⟨e, lookupKey_eq_some_of_mem hnd hmem, rfl, rfl, rfl, rfl, rfl⟩

/-- Witness for `serialization_roundtrip` at a two-entry schedule (one
entry with empty purpose and nil parsedTime, one with both present). -/
theorem serialization_roundtrip_witness :
    ∃ s₁, DeserializeSchedule (SerializeSchedule
      [("TUESDAY, 10/3",
        { dayOfWeek := "TUESDAY", dayOfMonth := "10/3",
          location := "Warren", timeBlock := "4:45-6:45", purpose := "",
          parsedTime := none }),
       ("11/19",
        { dayOfWeek := "", dayOfMonth := "11/19", location := "BTC",
          timeBlock := "6:00-7:30", purpose := "Open Gym",
          parsedTime := some "2023-11-19T18:00:00Z" })]) = Except.ok s₁ ∧
      (∀ k, k ∈ keys s₁ ↔ k ∈ keys
        [("TUESDAY, 10/3",
          { dayOfWeek := "TUESDAY", dayOfMonth := "10/3",
            location := "Warren", timeBlock := "4:45-6:45", purpose := "",
            parsedTime := none }),
         ("11/19",
          { dayOfWeek := "", dayOfMonth := "11/19", location := "BTC",
            timeBlock := "6:00-7:30", purpose := "Open Gym",
            parsedTime := some "2023-11-19T18:00:00Z" })]) ∧
      (∀ k e, lookupKey k
        [("TUESDAY, 10/3",
          { dayOfWeek := "TUESDAY", dayOfMonth := "10/3",
            location := "Warren", timeBlock := "4:45-6:45", purpose := "",
            parsedTime := none }),
         ("11/19",
          { dayOfWeek := "", dayOfMonth := "11/19", location := "BTC",
            timeBlock := "6:00-7:30", purpose := "Open Gym",
            parsedTime := some "2023-11-19T18:00:00Z" })] = some e →
        ∃ e₁, lookupKey k s₁ = some e₁ ∧
          e₁.dayOfWeek = e.dayOfWeek ∧ e₁.dayOfMonth = e.dayOfMonth ∧
          e₁.purpose = e.purpose ∧ e₁.location = e.location ∧
          e₁.timeBlock = e.timeBlock) :=
  serialization_roundtrip _ (by decide)

/-! ### Helper lemmas: the time-pattern matcher -/

theorem hasPrefixL_iff {p l : List Char} :
    hasPrefixL p l = true ↔ ∃ r, l = p ++ r := by
  induction p generalizing l with
  | nil => simp [hasPrefixL]
  | cons a p ih =>
    cases l with
    | nil => simp [hasPrefixL]
    | cons b l =>
      rw [hasPrefixL, Bool.and_eq_true, decide_eq_true_eq, ih]
      constructor
      · rintro ⟨rfl, r, rfl⟩
        exact ⟨r, rfl⟩
      · rintro ⟨r, hr⟩
        rcases hr with ⟨rfl, rfl⟩
        exact ⟨rfl, r, rfl⟩

theorem takeWhile_append_cons {p : Char → Bool} {xs ys : List Char}
    {y : Char} (hall : ∀ c ∈ xs, p c = true) (hy : p y = false) :
    (xs ++ y :: ys).takeWhile p = xs ∧
    (xs ++ y :: ys).dropWhile p = y :: ys := by
  induction xs with
  | nil => simp [List.takeWhile_cons, List.dropWhile_cons, hy]
  | cons a xs ih =>
    have ha : p a = true := hall a (List.mem_cons_self _ _)
    have ih' := ih (fun c hc => hall c (List.mem_cons_of_mem _ hc))
    simp only [List.cons_append, List.takeWhile_cons, List.dropWhile_cons,
      ha, if_true]
    exact ⟨by rw [ih'.1], by rw [ih'.2]⟩

theorem matchDashPart_consumes (r : List Char) :
    (matchDashPart r).1 ++ (matchDashPart r).2 = r := by
  cases r with
  | nil => rfl
  | cons c rest =>
    simp only [matchDashPart]
    split
    · split
      · simp
      · split
        · split
          · simp
          · rename_i heq hne₂
            rw [List.cons_append, List.append_assoc, List.cons_append,
              List.takeWhile_append_dropWhile, ← heq,
              List.takeWhile_append_dropWhile]
        · simp
    · simp

theorem matchAmPm_consumes (r : List Char) :
    ∃ r₁, r = matchAmPm r ++ r₁ := by
  rw [matchAmPm]
  by_cases ha : hasPrefixL ['a', 'm'] r = true
  · rw [if_pos ha]
    exact hasPrefixL_iff.mp ha
  · rw [if_neg ha]
    by_cases hp : hasPrefixL ['p', 'm'] r = true
    · rw [if_pos hp]
      exact hasPrefixL_iff.mp hp
    · rw [if_neg hp]
      exact ⟨r, rfl⟩

theorem isEmpty_false_ne_nil {l : List Char} (h : l.isEmpty = false) :
    l ≠ [] := by
  cases l with
  | nil => simp at h
  | cons a l => simp

/-- Structure and consumption of a successful anchored time match:
the match is `d₁ ++ ":" ++ d₂ ++ t` for non-empty digit runs `d₁, d₂`,
and it is a prefix of the input. -/
theorem matchTimeAt_spec {l m : List Char} (h : matchTimeAt l = some m) :
    ∃ d₁ d₂ t r, m = d₁ ++ ':' :: (d₂ ++ t) ∧ l = m ++ r ∧
      d₁ ≠ [] ∧ d₂ ≠ [] ∧
      (∀ c ∈ d₁, isDigitChar c = true) ∧
      (∀ c ∈ d₂, isDigitChar c = true) := by
  simp only [matchTimeAt] at h
  by_cases hd₁ : (l.takeWhile isDigitChar).isEmpty = true
  · rw [if_pos hd₁] at h
    exact absurd h (by simp)
  · rw [if_neg hd₁] at h
    by_cases hc : hasPrefixL [':'] (l.dropWhile isDigitChar) = true
    · rw [if_pos hc] at h
      obtain ⟨t₂, ht₂⟩ := hasPrefixL_iff.mp hc
      rw [List.singleton_append] at ht₂
      have htail : (l.dropWhile isDigitChar).tail = t₂ := by
        rw [ht₂]
        rfl
      rw [htail] at h
      by_cases hd₂ : (t₂.takeWhile isDigitChar).isEmpty = true
      · rw [if_pos hd₂] at h
        exact absurd h (by simp)
      · rw [if_neg hd₂] at h
        injection h with h₁
        subst h₁
        obtain ⟨rr, hrr⟩ :=
          matchAmPm_consumes (matchDashPart (t₂.dropWhile isDigitChar)).2
        have hl : l = l.takeWhile isDigitChar ++ (':' :: t₂) := by
          conv_lhs => rw [← List.takeWhile_append_dropWhile isDigitChar l]
          rw [ht₂]
        have ht₂' : t₂ = t₂.takeWhile isDigitChar ++
            ((matchDashPart (t₂.dropWhile isDigitChar)).1 ++
              (matchAmPm (matchDashPart (t₂.dropWhile isDigitChar)).2 ++
                rr)) := by
          conv_lhs => rw [← List.takeWhile_append_dropWhile isDigitChar t₂]
          rw [show (matchDashPart (t₂.dropWhile isDigitChar)).1 ++
              (matchAmPm (matchDashPart (t₂.dropWhile isDigitChar)).2 ++ rr) =
              t₂.dropWhile isDigitChar from by
            rw [← hrr, matchDashPart_consumes]]
        refine ⟨l.takeWhile isDigitChar, t₂.takeWhile isDigitChar,
          (matchDashPart (t₂.dropWhile isDigitChar)).1 ++
            matchAmPm (matchDashPart (t₂.dropWhile isDigitChar)).2,
          rr, ?_, ?_, ?_, ?_,
          fun c hc => List.mem_takeWhile_imp hc,
          fun c hc => List.mem_takeWhile_imp hc⟩
        · simp [List.append_assoc]
        · conv_lhs => rw [hl]
          conv_lhs => rw [ht₂']
          simp [List.append_assoc]
        · exact isEmpty_false_ne_nil (by simpa using hd₁)
        · exact isEmpty_false_ne_nil (by simpa using hd₂)
    · rw [if_neg hc] at h
      exact absurd h (by simp)

theorem hasPrefixL_append_self (p r : List Char) :
    hasPrefixL p (p ++ r) = true :=
  hasPrefixL_iff.mpr ⟨r, rfl⟩

/-- Any text beginning with digit-run, colon, digit-run admits an anchored
time match (the optional groups cannot make it fail). -/
theorem matchTimeAt_isSome_of_shape (d₁ d₂ r : List Char)
    (h₁ : d₁ ≠ []) (h₂ : d₂ ≠ [])
    (ha₁ : ∀ c ∈ d₁, isDigitChar c = true)
    (ha₂ : ∀ c ∈ d₂, isDigitChar c = true) :
    (matchTimeAt (d₁ ++ ':' :: (d₂ ++ r))).isSome = true := by
  have hcolon : isDigitChar ':' = false := by decide
  obtain ⟨htake, hdrop⟩ :=
    @takeWhile_append_cons isDigitChar d₁ (d₂ ++ r) ':' ha₁ hcolon
  have hd₁ : d₁.isEmpty = false := by
    cases d₁ with
    | nil => exact absurd rfl h₁
    | cons a l => rfl
  rcases d₂ with _ | ⟨c₂, d₂'⟩
  · exact absurd rfl h₂
  · have hc₂ : isDigitChar c₂ = true := ha₂ c₂ (List.mem_cons_self _ _)
    simp only [matchTimeAt, htake, hdrop, hd₁]
    simp [hasPrefixL, List.takeWhile_cons, hc₂]

/-- Decomposition of a successful `FindString`: the input splits as the
prefix before the match followed by a suffix on which the anchored matcher
returns the match. -/
theorem findTimeSplit_spec {l pre m : List Char}
    (h : findTimeSplit l = some (pre, m)) :
    ∃ suffix, matchTimeAt suffix = some m ∧ l = pre ++ suffix := by
  induction l generalizing pre with
  | nil => simp [findTimeSplit] at h
  | cons c rest ih =>
    rw [findTimeSplit] at h
    cases h₀ : matchTimeAt (c :: rest) with
    | some m₀ =>
      rw [h₀] at h
      simp only [Option.some.injEq, Prod.mk.injEq] at h
      obtain ⟨rfl, rfl⟩ := h
      exact ⟨c :: rest, h₀, rfl⟩
    | none =>
      rw [h₀] at h
      rcases hrec : findTimeSplit rest with _ | ⟨pre₁, m₁⟩
      · rw [hrec] at h
        simp at h
      · rw [hrec] at h
        simp only [Option.map_some, Option.some.injEq, Prod.mk.injEq] at h
        obtain ⟨rfl, rfl⟩ := h
        obtain ⟨suffix, hs, hl⟩ := ih hrec
        exact ⟨suffix, hs, by rw [List.cons_append, hl]⟩

/-- The text `strings.Split(text, m)[0]` — everything before the first
occurrence of `m` — coincides with the text before the leftmost match
position, because any occurrence of the matched string admits a match. -/
theorem beforeFirst_findTimeSplit {l pre m : List Char}
    (h : findTimeSplit l = some (pre, m)) :
    beforeFirst m l = pre := by
  induction l generalizing pre with
  | nil => simp [findTimeSplit] at h
  | cons c rest ih =>
    rw [findTimeSplit] at h
    cases h₀ : matchTimeAt (c :: rest) with
    | some m₀ =>
      rw [h₀] at h
      simp only [Option.some.injEq, Prod.mk.injEq] at h
      obtain ⟨rfl, rfl⟩ := h
      obtain ⟨d₁, d₂, t, r, hm, hcons, -, -, -, -⟩ := matchTimeAt_spec h₀
      rw [beforeFirst, if_pos]
      rw [hcons]
      exact hasPrefixL_append_self m₀ r
    | none =>
      rw [h₀] at h
      rcases hrec : findTimeSplit rest with _ | ⟨pre₁, m₁⟩
      · rw [hrec] at h
        simp at h
      · rw [hrec] at h
        simp only [Option.map_some, Option.some.injEq, Prod.mk.injEq] at h
        obtain ⟨rfl, rfl⟩ := h
        have hnp : hasPrefixL m₁ (c :: rest) = false := by
          cases hx : hasPrefixL m₁ (c :: rest) with
          | false => rfl
          | true =>
            exfalso
            obtain ⟨r₁, hr₁⟩ := hasPrefixL_iff.mp hx
            obtain ⟨suffix, hms, -⟩ := findTimeSplit_spec hrec
            obtain ⟨d₁, d₂, t, rx, hm, -, hne₁, hne₂, ha₁, ha₂⟩ :=
              matchTimeAt_spec hms
            have hsome :=
              matchTimeAt_isSome_of_shape d₁ d₂ (t ++ r₁) hne₁ hne₂ ha₁ ha₂
            rw [show d₁ ++ ':' :: (d₂ ++ (t ++ r₁)) = c :: rest from by
              rw [hr₁, hm]
              simp [List.append_assoc]] at hsome
            rw [h₀] at hsome
            simp at hsome
        rw [beforeFirst, hnp]
        simp only [Bool.false_eq_true, if_false, List.cons.injEq]
        exact ⟨trivial, ih hrec⟩

/-! ### Helper lemmas: trimmed parts and joining -/

theorem trimSpace_head_not_space {s : List Char} {a : Char}
    (h : (trimSpace s).head? = some a) : isSpaceChar a = false := by
  rw [trimSpace_eq_rdrop] at h
  obtain ⟨t, ht⟩ :=
    List.rdropWhile_prefix isSpaceChar (List.dropWhile isSpaceChar s)
  rcases hv : List.rdropWhile isSpaceChar (List.dropWhile isSpaceChar s) with
    _ | ⟨b, v⟩
  · rw [hv] at h
    simp at h
  · rw [hv] at h
    rw [hv] at ht
    have hb : b = a := by
      simpa using h
    subst hb
    exact @dropWhile_head_false isSpaceChar s (v ++ t) b
      (by rw [← ht, List.cons_append])

theorem trimSpace_last_not_space {s : List Char} {b : Char}
    (h : (trimSpace s).getLast? = some b) : isSpaceChar b = false := by
  rw [trimSpace_eq_rdrop] at h
  have hne : List.rdropWhile isSpaceChar (List.dropWhile isSpaceChar s) ≠
      [] := by
    intro hx
    rw [hx] at h
    simp at h
  have hlast := List.rdropWhile_last_not isSpaceChar
    (List.dropWhile isSpaceChar s) hne
  rw [List.getLast?_eq_getLast_of_ne_nil hne] at h
  have hb := Option.some.injEq .. ▸ h
  rw [hb] at hlast
  simpa using hlast

theorem trimSpace_eq_self {l : List Char}
    (h₁ : ∀ a, l.head? = some a → isSpaceChar a = false)
    (h₂ : ∀ b, l.getLast? = some b → isSpaceChar b = false) :
    trimSpace l = l := by
  rw [trimSpace_eq_rdrop]
  have hd : List.dropWhile isSpaceChar l = l := by
    cases l with
    | nil => rfl
    | cons a l₁ =>
      have := h₁ a rfl
      simp [List.dropWhile_cons, this]
  rw [hd, List.rdropWhile_eq_self_iff]
  intro hl
  have := h₂ (l.getLast hl) (List.getLast?_eq_getLast_of_ne_nil hl)
  simp [this]

theorem joinSep_cons_head {sep p : List Char} {ps : List (List Char)}
    (hp : p ≠ []) : (joinSep sep (p :: ps)).head? = p.head? := by
  cases ps with
  | nil => rfl
  | cons q ps₁ =>
    simp only [joinSep]
    cases p with
    | nil => exact absurd rfl hp
    | cons a p₁ => rfl

theorem joinSep_cons_ne_nil {sep p : List Char} {ps : List (List Char)}
    (hp : p ≠ []) : joinSep sep (p :: ps) ≠ [] := by
  cases ps with
  | nil => exact hp
  | cons q ps₁ =>
    simp only [joinSep]
    cases p with
    | nil => exact absurd rfl hp
    | cons a p₁ => simp

theorem joinSep_last_not_space {sep : List Char} {ps : List (List Char)}
    (hne : ∀ q ∈ ps, q ≠ [])
    (hlast : ∀ q ∈ ps, ∀ b, q.getLast? = some b → isSpaceChar b = false) :
    ∀ b, (joinSep sep ps).getLast? = some b → isSpaceChar b = false := by
  induction ps with
  | nil =>
    intro b hb
    simp [joinSep] at hb
  | cons p ps ih =>
    cases ps with
    | nil =>
      intro b hb
      exact hlast p (List.mem_cons_self _ _) b hb
    | cons q ps₁ =>
      intro b hb
      simp only [joinSep] at hb
      rw [List.getLast?_append_of_ne_nil _
        (joinSep_cons_ne_nil (hne q (by simp)))] at hb
      exact ih (fun r hr => hne r (List.mem_cons_of_mem _ hr))
        (fun r hr => hlast r (List.mem_cons_of_mem _ hr)) b hb

/-- Every element of the filtered trimmed parts list is non-empty, fixed by
`trimSpace`, and free of surrounding whitespace. -/
theorem parts_mem_props {x p : List Char} (hp : p ∈ partsOf x) :
    p ≠ [] ∧ trimSpace p = p ∧
    (∀ a, p.head? = some a → isSpaceChar a = false) ∧
    (∀ b, p.getLast? = some b → isSpaceChar b = false) := by
  rw [partsOf] at hp
  obtain ⟨hmem, hne⟩ := List.mem_filter.mp hp
  obtain ⟨seg, hseg, rfl⟩ := List.mem_map.mp hmem
  refine ⟨?_, trimSpace_idem seg,
    fun a ha => trimSpace_head_not_space ha,
    fun b hb => trimSpace_last_not_space hb⟩
  simp only [Bool.not_eq_true'] at hne
  exact isEmpty_false_ne_nil hne

theorem trim_headD_partsOf (x : List Char) :
    trimSpace ((partsOf x).headD []) = (partsOf x).headD [] := by
  rcases hP : partsOf x with _ | ⟨p, ps⟩
  · rfl
  · have hp : p ∈ partsOf x := by
      rw [hP]
      exact List.mem_cons_self _ _
    exact (parts_mem_props hp).2.1

theorem trim_getLastD_partsOf (x : List Char) :
    trimSpace ((partsOf x).getLastD []) = (partsOf x).getLastD [] := by
  rcases hP : partsOf x with _ | ⟨p, ps⟩
  · rfl
  · have hne : p :: ps ≠ [] := by simp
    have hq : (p :: ps).getLast hne ∈ partsOf x := by
      rw [hP]
      exact List.getLast_mem hne
    rw [List.getLastD_eq_getLast?, List.getLast?_eq_getLast_of_ne_nil hne]
    exact (parts_mem_props hq).2.1

theorem trim_join_dropLast_partsOf (x : List Char) :
    trimSpace (joinSep [',', ' '] (partsOf x).dropLast) =
      joinSep [',', ' '] (partsOf x).dropLast := by
  rcases hq : (partsOf x).dropLast with _ | ⟨p, ps⟩
  · rfl
  · have hsub : ∀ r ∈ p :: ps, r ∈ partsOf x := by
      intro r hr
      exact (List.dropLast_sublist (partsOf x)).subset (hq ▸ hr)
    have hp₀ : p ∈ partsOf x := hsub p (List.mem_cons_self _ _)
    apply trimSpace_eq_self
    · intro a ha
      rw [joinSep_cons_head (parts_mem_props hp₀).1] at ha
      exact (parts_mem_props hp₀).2.2.1 a ha
    · exact joinSep_last_not_space
        (fun r hr => (parts_mem_props (hsub r hr)).1)
        (fun r hr => (parts_mem_props (hsub r hr)).2.2.2)

/-- C9: whenever the time regex finds a (leftmost) match `m` with prefix
`pre` before it in the sanitized row text, `parseEventText` returns `m`
with the am/pm suffix stripped and dash variants replaced as `timeBlock`,
and splits the comma-stripped text preceding the match into non-empty
trimmed parts: with two or more parts the last is the location and the
rest joined by `", "` is the purpose; with one part it is the location and
the purpose is empty; with none both are empty.  The first conjunct
identifies the code's `strings.Split(text, timeMatch)[0]` with the text
before the match position. -/
theorem parseEventText_spec (t pre m : List Char)
    (h : findTimeSplit (trimSpace (SanitizeText t)) = some (pre, m)) :
    beforeFirst m (trimSpace (SanitizeText t)) = pre ∧
    parseEventText t =
      (if 2 ≤ (partsOf (trimSpace (trimSuffixL pre [',']))).length then
        (joinSep [',', ' ']
           (partsOf (trimSpace (trimSuffixL pre [',']))).dropLast,
         (partsOf (trimSpace (trimSuffixL pre [',']))).getLastD [],
         replaceChar emDash '-' (replaceChar enDash '-'
           (trimSuffixL (trimSuffixL m ['a', 'm']) ['p', 'm'])))
      else if (partsOf (trimSpace (trimSuffixL pre [',']))).length = 1 then
        ([], (partsOf (trimSpace (trimSuffixL pre [',']))).headD [],
         replaceChar emDash '-' (replaceChar enDash '-'
           (trimSuffixL (trimSuffixL m ['a', 'm']) ['p', 'm'])))
      else
        ([], [],
         replaceChar emDash '-' (replaceChar enDash '-'
           (trimSuffixL (trimSuffixL m ['a', 'm']) ['p', 'm'])))) := by
  have hbefore : beforeFirst m (trimSpace (SanitizeText t)) = pre :=
    beforeFirst_findTimeSplit h
  refine ⟨hbefore, ?_⟩
  rw [show parseEventText t =
      (match findTimeSplit (trimSpace (SanitizeText t)) with
       | some pm =>
         (if 2 ≤ (partsOf (trimSpace (trimSuffixL
             (beforeFirst pm.2 (trimSpace (SanitizeText t)))
             [',']))).length then
           (trimSpace (joinSep [',', ' ']
              (partsOf (trimSpace (trimSuffixL
                (beforeFirst pm.2 (trimSpace (SanitizeText t)))
                [',']))).dropLast),
            trimSpace ((partsOf (trimSpace (trimSuffixL
              (beforeFirst pm.2 (trimSpace (SanitizeText t)))
              [',']))).getLastD []),
            replaceChar emDash '-' (replaceChar enDash '-'
              (trimSuffixL (trimSuffixL pm.2 ['a', 'm']) ['p', 'm'])))
         else if (partsOf (trimSpace (trimSuffixL
             (beforeFirst pm.2 (trimSpace (SanitizeText t)))
             [',']))).length = 1 then
           ([], trimSpace ((partsOf (trimSpace (trimSuffixL
              (beforeFirst pm.2 (trimSpace (SanitizeText t)))
              [',']))).headD []),
            replaceChar emDash '-' (replaceChar enDash '-'
              (trimSuffixL (trimSuffixL pm.2 ['a', 'm']) ['p', 'm'])))
         else
           ([], [],
            replaceChar emDash '-' (replaceChar enDash '-'
              (trimSuffixL (trimSuffixL pm.2 ['a', 'm']) ['p', 'm']))))
       | none =>
         (if 2 ≤ (partsOf (trimSpace (SanitizeText t))).length then
           (trimSpace (joinSep [',', ' ']
              (partsOf (trimSpace (SanitizeText t))).dropLast),
            trimSpace ((partsOf (trimSpace (SanitizeText t))).getLastD []),
            ([] : List Char))
         else
           ([], trimSpace (trimSpace (SanitizeText t)), []))) from rfl]
  rw [h]
  simp only [hbefore]
  by_cases h₂ : 2 ≤ (partsOf (trimSpace (trimSuffixL pre [',']))).length
  · rw [if_pos h₂, if_pos h₂, trim_join_dropLast_partsOf,
      trim_getLastD_partsOf]
  · rw [if_neg h₂, if_neg h₂]
    by_cases h₁ : (partsOf (trimSpace (trimSuffixL pre [',']))).length = 1
    · rw [if_pos h₁, if_pos h₁, trim_headD_partsOf]
    · rw [if_neg h₁, if_neg h₁]

/-- Witness for `parseEventText_spec`: the row `"Scrimmage, Eliot, 4:15"`
yields purpose `"Scrimmage"`, location `"Eliot"`, timeBlock `"4:15"`. -/
theorem parseEventText_spec_witness :
    parseEventText "Scrimmage, Eliot, 4:15".toList =
      ("Scrimmage".toList, "Eliot".toList, "4:15".toList) := by
  have hs := parseEventText_spec "Scrimmage, Eliot, 4:15".toList
    "Scrimmage, Eliot, ".toList "4:15".toList (by decide)
  exact hs.2.trans (by decide)

end Bandits
